import Mathlib

/-!
Verification development for the analysis/interpretation core of
`@atomist/sdm-pack-analysis`.

The definitions below are a shallow embedding of the TypeScript source:

* `src/lib/analysis/Interpretation.ts` — the goal-graph builder
  (`controlGoals`, `checkGoals`, `buildGoals`, `testGoals`,
  `containerGoals`, `releaseGoals`, `deployGoals`);
* `src/lib/analysis/support/scoring.ts` — `weightedCompositeScore`;
* `src/lib/analysis/support/DefaultProjectAnalyzerBuilder.ts` —
  the `analyze` merge loop and `runInterpretation`;
* `src/lib/analysis/ProjectAnalyzer.ts` — `performSeedAnalysis`;
* `src/lib/analysis/support/projectAnalysisUtils.ts` — `isUsableAsSeed`.

JavaScript arrays become `List`, records become association lists or
structures, `undefined` becomes `Option.none`, promise rejection becomes
`Except.error`, and the in-place mutation of the shared `Interpretation`
object is embedded as explicit state passing: each phase builder returns
the value the source function returns together with the interpretation
state after the call.
-/

namespace SdmPackAnalysis

/-- Modelled external interface (from `@atomist/sdm`, outside this
repository): per the spec a `Goal` is "an opaque schedulable unit with a
display name and a dependency list that the core never executes, only
wires together".  We reference an edge's target goal by its display
name. -/
structure Goal where
  displayName : String
  dependsOn : List String
deriving DecidableEq, Repr

/-- Modelled external interface (from `@atomist/sdm`): a `Goals` value is
a named collection of goals built with `goals(name)` / `plan` /
`after`. -/
structure GoalsV where
  label : String
  goals : List Goal
deriving DecidableEq, Repr

/-- `PreferencesElement` from
`src/lib/element/preferences/preferencesScanner.ts`: the `preferences`
technology element carrying the display names of disabled goals. -/
structure PreferencesElement where
  disabledGoals : List String
deriving DecidableEq, Repr

/-- A `Score` from `src/lib/analysis/Score.ts`: a named quality signal.
`score` carries the `FiveStar` value (the source type is `0|1|2|3|4|5`;
we use `Nat` and state the 0..5 range where a claim needs it). -/
structure ScoreV where
  name : String
  score : Nat
deriving DecidableEq, Repr

/-- The `Interpretation` state read and written by the goal-graph
builder in `src/lib/analysis/Interpretation.ts`.  Phase slots are the
optional `Goals` fields of `DeliveryPhases`; `autofixes` and
`inspections` record the lengths of the corresponding registration
arrays (the source only reads `.length`); `preferences` stands for
`reason.analysis.elements.preferences`; `scores` lists the values of the
`scores` record in key order. -/
structure Interp where
  cancelGoal : Option Goal
  queueGoal : Option Goal
  checkGoals : Option GoalsV
  buildGoals : Option GoalsV
  testGoals : Option GoalsV
  containerBuildGoals : Option GoalsV
  releaseGoals : Option GoalsV
  deployGoals : Option GoalsV
  autofixes : Nat
  inspections : Nat
  preferences : Option PreferencesElement
  scores : List ScoreV
deriving DecidableEq, Repr

/-- The two pre-built goals the analyzer owns
(`DefaultProjectAnalyzerBuilder.autofixGoal` / `codeInspectionGoal`). -/
structure AnalyzerGoals where
  autofixGoal : Goal
  codeInspectionGoal : Goal
deriving DecidableEq, Repr

/-- `gs.plan(...newGoals).after(...pre)` from `@atomist/sdm` (modelled
external interface): each planned goal is replaced by a
`GoalWithPrecondition` whose dependency list is exactly the `after`
goals. -/
def planAfter (gs : GoalsV) (newGoals : List Goal) (pre : List Goal) : GoalsV :=
  { gs with goals := gs.goals ++ newGoals.map (fun g => { g with dependsOn := pre.map Goal.displayName }) }

/-- `g.dependsOn.push(...pre)` applied to every goal of a `Goals` value:
the in-place edge appending done by the build/test/container/release/
deploy builders. -/
def pushEdges (gs : GoalsV) (pre : List Goal) : GoalsV :=
  { gs with goals := gs.goals.map (fun g => { g with dependsOn := g.dependsOn ++ pre.map Goal.displayName }) }

/-- `controlGoals` (Interpretation.ts line 143): plans the cancel goal,
then the queue goal, into a fresh `control` collection. -/
def controlGoals (i : Interp) : GoalsV :=
  let s0 : GoalsV := ⟨"control", []⟩
  let s1 := match i.cancelGoal with
    | some c => { s0 with goals := s0.goals ++ [c] }
    | none => s0
  match i.queueGoal with
  | some q => { s1 with goals := s1.goals ++ [q] }
  | none => s1

/-- The `checks` value assembled by `checkGoals` (Interpretation.ts
lines 164-174) before the preference-driven rebuild: the autofix goal
(when autofixes are registered), the code-inspection goal (when
inspections are registered), and the goals of the explicit `checkGoals`
slot, each planned `after` the control goals (and the autofix goal for
the latter two). -/
def checkAssembled (analyzer : AnalyzerGoals) (i : Interp) : GoalsV :=
  let startup := controlGoals i
  let c0 : GoalsV := ⟨"checks", []⟩
  let c1 := if 0 < i.autofixes then planAfter c0 [analyzer.autofixGoal] startup.goals else c0
  let c2 := if 0 < i.inspections then
      planAfter c1 [analyzer.codeInspectionGoal] (startup.goals ++ [analyzer.autofixGoal])
    else c1
  match i.checkGoals with
  | some cg => planAfter c2 cg.goals (startup.goals ++ [analyzer.autofixGoal])
  | none => c2

/-- `checkGoals` (Interpretation.ts line 163): assembles the checks
goal set, then, if the analysis has a `preferences` element, rebuilds it
keeping only the goals whose display name is not disabled. -/
def checkGoals (analyzer : AnalyzerGoals) (i : Interp) : GoalsV :=
  let checks := checkAssembled analyzer i
  match i.preferences with
  | some prefs => ⟨"checks", checks.goals.filter (fun g => !(prefs.disabledGoals.contains g.displayName))⟩
  | none => checks

/-- `buildGoals` (Interpretation.ts line 182).  The source pushes the
control goals and the checks goals onto `dependsOn` of every goal stored
in the `buildGoals` slot and returns that slot; the mutation is embedded
as the second component of the result. -/
def buildGoals (analyzer : AnalyzerGoals) (i : Interp) : Option GoalsV × Interp :=
  let preCondition := checkGoals analyzer i
  let startup := controlGoals i
  match i.buildGoals with
  | some b =>
    let b' := pushEdges b (startup.goals ++ preCondition.goals)
    (some b', { i with buildGoals := some b' })
  | none => (none, i)

/-- `testGoals` (Interpretation.ts line 202): precondition is
`buildGoals(...) || checkGoals(...)`; `buildGoals` runs (and mutates)
first, `checkGoals` only when it returned `undefined`. -/
def testGoals (analyzer : AnalyzerGoals) (i : Interp) : Option GoalsV × Interp :=
  let r := buildGoals analyzer i
  let i1 := r.2
  let preCondition := match r.1 with
    | some g => g
    | none => checkGoals analyzer i1
  let startup := controlGoals i1
  match i1.testGoals with
  | some t =>
    let t' := pushEdges t (startup.goals ++ preCondition.goals)
    (some t', { i1 with testGoals := some t' })
  | none => (none, i1)

/-- `containerGoals` (Interpretation.ts line 212): precondition chain
`testGoals || buildGoals || checkGoals`, each link evaluated (with its
side effects) only when the previous returned `undefined`. -/
def containerGoals (analyzer : AnalyzerGoals) (i : Interp) : Option GoalsV × Interp :=
  let r1 := testGoals analyzer i
  let pc : GoalsV × Interp := match r1.1 with
    | some g => (g, r1.2)
    | none =>
      let r2 := buildGoals analyzer r1.2
      match r2.1 with
      | some g => (g, r2.2)
      | none => (checkGoals analyzer r2.2, r2.2)
  let i1 := pc.2
  let startup := controlGoals i1
  match i1.containerBuildGoals with
  | some c =>
    let c' := pushEdges c (startup.goals ++ pc.1.goals)
    (some c', { i1 with containerBuildGoals := some c' })
  | none => (none, i1)

/-- `releaseGoals` (Interpretation.ts line 222): precondition chain
`containerGoals || testGoals || buildGoals || checkGoals`. -/
def releaseGoals (analyzer : AnalyzerGoals) (i : Interp) : Option GoalsV × Interp :=
  let r1 := containerGoals analyzer i
  let pc : GoalsV × Interp := match r1.1 with
    | some g => (g, r1.2)
    | none =>
      let r2 := testGoals analyzer r1.2
      match r2.1 with
      | some g => (g, r2.2)
      | none =>
        let r3 := buildGoals analyzer r2.2
        match r3.1 with
        | some g => (g, r3.2)
        | none => (checkGoals analyzer r3.2, r3.2)
  let i1 := pc.2
  let startup := controlGoals i1
  match i1.releaseGoals with
  | some rel =>
    let rel' := pushEdges rel (startup.goals ++ pc.1.goals)
    (some rel', { i1 with releaseGoals := some rel' })
  | none => (none, i1)

/-- `deployGoals` (Interpretation.ts line 233): precondition chain
`releaseGoals || containerGoals || testGoals || buildGoals ||
checkGoals`. -/
def deployGoals (analyzer : AnalyzerGoals) (i : Interp) : Option GoalsV × Interp :=
  let r1 := releaseGoals analyzer i
  let pc : GoalsV × Interp := match r1.1 with
    | some g => (g, r1.2)
    | none =>
      let r2 := containerGoals analyzer r1.2
      match r2.1 with
      | some g => (g, r2.2)
      | none =>
        let r3 := testGoals analyzer r2.2
        match r3.1 with
        | some g => (g, r3.2)
        | none =>
          let r4 := buildGoals analyzer r3.2
          match r4.1 with
          | some g => (g, r4.2)
          | none => (checkGoals analyzer r4.2, r4.2)
  let i1 := pc.2
  let startup := controlGoals i1
  match i1.deployGoals with
  | some d =>
    let d' := pushEdges d (startup.goals ++ pc.1.goals)
    (some d', { i1 with deployGoals := some d' })
  | none => (none, i1)

/-! ### Scoring (`src/lib/analysis/support/scoring.ts`) -/

/-- The effective weighting of one score inside the loop of
`weightedCompositeScore`: `weightings[score.name] || 1`.  A stored
weight that is JavaScript-falsy (`0`) and an absent name both yield 1.
The source `Weighting` type only admits 1, 2 or 3. -/
def effectiveWeighting (weightings : List (String × Nat)) (name : String) : Nat :=
  match weightings.find? (fun kv => kv.1 == name) with
  | some kv => if kv.2 = 0 then 1 else kv.2
  | none => 1

/-- `weightedCompositeScore(i, weightings)` (scoring.ts line 31):
`undefined` when the interpretation holds no scores, otherwise the loop
accumulating `score.score * weighting` and `weighting` over all stored
scores, finishing with the division.  Real-number division is embedded
as rational division. -/
def weightedCompositeScore (i : Interp) (weightings : List (String × Nat)) : Option ℚ :=
  if i.scores.length = 0 then none
  else
    let acc := i.scores.foldl
      (fun (acc : ℚ × ℚ) s =>
        (acc.1 + (s.score : ℚ) * (effectiveWeighting weightings s.name : ℚ),
         acc.2 + (effectiveWeighting weightings s.name : ℚ)))
      (0, 0)
    some (acc.1 / acc.2)

/-! ### The analyzer (`src/lib/analysis/support/DefaultProjectAnalyzerBuilder.ts`) -/

/-- The slice of a `TechnologyElement` the analyze merge loop reads for
the claims below: its unique `name` and its optional
`referencedEnvironmentVariables` contribution. -/
structure TechElem where
  name : String
  referencedEnvironmentVariables : Option (List String)
deriving DecidableEq, Repr

/-- One scanner registration as seen by a single `analyze` call:
`runWhen` is the predicate's value for this call's options and context,
and `result` the settled outcome of invoking the scanner — an error for
a rejected promise, `.ok none` for a scanner that resolved to nothing
(it is dropped by the `filter(r => !!r)`), `.ok (some e)` for a
returned element. -/
structure ScannerReg (E : Type) where
  runWhen : Bool
  result : Except E (Option TechElem)

/-- The result `Analysis` slice built by `analyze`: the merged elements
(in resolution order) and the merged
`referencedEnvironmentVariables`. -/
structure ProjectAnalysisV where
  elements : List TechElem
  referencedEnvironmentVariables : List String
deriving DecidableEq, Repr

/-- The env-var merge loop of `analyze` (DefaultProjectAnalyzerBuilder.ts
lines 197-200): for each scanned element with a
`referencedEnvironmentVariables` list, append the names not already
present.  The filter is evaluated against the accumulator as it stood
before the push. -/
def mergeEnvVars (acc : List String) : List TechElem → List String
  | [] => acc
  | s :: rest =>
    match s.referencedEnvironmentVariables with
    | some vs => mergeEnvVars (acc ++ vs.filter (fun e => !(acc.contains e))) rest
    | none => mergeEnvVars acc rest

/-- Await all eligible scanners (the `Promise.all` of analyze): the
first rejection rejects the whole batch, otherwise the elements of the
scanners that returned one, in registration order. -/
def awaitScanners {E : Type} : List (ScannerReg E) → Except E (List TechElem)
  | [] => .ok []
  | r :: rest =>
    match r.result with
    | .error e => .error e
    | .ok v =>
      match awaitScanners rest with
      | .error e => .error e
      | .ok tl => .ok (match v with
        | some el => el :: tl
        | none => tl)

/-- `analyze` (DefaultProjectAnalyzerBuilder.ts line 168) restricted to
the data the claims concern: filter registrations by `runWhen`, await
the batch (any rejection aborts the call), then run the merge loop
starting from the empty `referencedEnvironmentVariables` list. -/
def analyze {E : Type} (regs : List (ScannerReg E)) : Except E ProjectAnalysisV :=
  match awaitScanners (regs.filter (fun r => r.runWhen)) with
  | .error e => .error e
  | .ok elems => .ok ⟨elems, mergeEnvVars [] elems⟩

/-! ### Interpretation run (`runInterpretation`, DefaultProjectAnalyzerBuilder.ts line 228) -/

/-- One interpreter registration as seen by a single `interpret` call
over an interpretation state `σ`: `id` identifies the interpreter
action, `runWhen` is the predicate's value for this call, and `enrich`
is the interpreter's effect — the mutated shared state together with the
boolean the promise resolved to. -/
structure InterpreterReg (σ : Type) where
  id : Nat
  runWhen : Bool
  enrich : σ → σ × Bool

/-- The interpreter loop of `runInterpretation`: for each registration
whose `runWhen` holds, await `enrich` on the shared state and append the
interpreter to `chosenInterpreters` exactly when it returned `true`.
Returns the final state and the `chosenInterpreters` ids in order. -/
def runInterpretation {σ : Type} : List (InterpreterReg σ) → σ → σ × List Nat
  | [], s => (s, [])
  | r :: rest, s =>
    if r.runWhen then
      let step := r.enrich s
      let tail := runInterpretation rest step.1
      (tail.1, (if step.2 then [r.id] else []) ++ tail.2)
    else
      runInterpretation rest s

/-- The state reached by just running the enrichments of a list of
registrations in order, ignoring the booleans they return. -/
def applyEnrich {σ : Type} : List (InterpreterReg σ) → σ → σ
  | [], s => s
  | r :: rest, s => applyEnrich rest (r.enrich s).1

/-! ### Seed analysis (`performSeedAnalysis`, ProjectAnalyzer.ts line 140) -/

/-- A named transform-recipe parameter (`NamedParameter` slice). -/
structure NamedParam where
  name : String
deriving DecidableEq, Repr

/-- A `TransformRecipe`: proposed parameters and transforms.  A
transform is identified by its function `name` (the collision filter
compares `existing.name === p.name`). -/
structure TransformRecipe where
  parameters : List NamedParam
  transforms : List String
deriving DecidableEq, Repr

/-- One transform-recipe contributor as seen by a single
`performSeedAnalysis` call: provenance plus the settled result of its
`analyze` — `none` when it produced no recipe (skipped silently). -/
structure ContributorReg where
  originator : String
  optional : Bool
  result : Option TransformRecipe
deriving DecidableEq, Repr

/-- `TransformRecipeRequest`: an accepted recipe wrapped with its
provenance. -/
structure TransformRecipeRequest where
  originator : String
  optional : Bool
  recipe : TransformRecipe
deriving DecidableEq, Repr

/-- Does any already-accepted recipe contain a parameter with this
name? (`_.flatten(transformRecipes.map(t => t.recipe.parameters)).some(existing => existing.name === p.name)`) -/
def hasParamNamed (accepted : List TransformRecipeRequest) (n : String) : Bool :=
  (accepted.flatMap (fun t => t.recipe.parameters)).any (fun existing => existing.name == n)

/-- Does any already-accepted recipe contain a transform with this
name? -/
def hasTransformNamed (accepted : List TransformRecipeRequest) (n : String) : Bool :=
  (accepted.flatMap (fun t => t.recipe.transforms)).any (fun existing => existing == n)

/-- The contributor loop of `performSeedAnalysis` with the recipes
accepted so far: each contributor's raw recipe is filtered against the
earlier-accepted recipes' parameter and transform names, then appended
with its provenance. -/
def performSeedAnalysisFrom (accepted : List TransformRecipeRequest) :
    List ContributorReg → List TransformRecipeRequest
  | [] => accepted
  | c :: rest =>
    match c.result with
    | some raw =>
      let recipe : TransformRecipe :=
        { parameters := raw.parameters.filter (fun p => !(hasParamNamed accepted p.name)),
          transforms := raw.transforms.filter (fun t => !(hasTransformNamed accepted t)) }
      performSeedAnalysisFrom (accepted ++ [⟨c.originator, c.optional, recipe⟩]) rest
    | none => performSeedAnalysisFrom accepted rest

/-- `performSeedAnalysis` (ProjectAnalyzer.ts line 140): the sequential
contributor loop started with no accepted recipes; the result is the
`transformRecipes` list of the `SeedAnalysis`. -/
def performSeedAnalysis (contributors : List ContributorReg) : List TransformRecipeRequest :=
  performSeedAnalysisFrom [] contributors

/-! ### `isUsableAsSeed` (`src/lib/analysis/support/projectAnalysisUtils.ts` line 32) -/

/-- A `SeedAnalysis`: the accepted transform-recipe requests. -/
structure SeedAnalysis where
  transformRecipes : List TransformRecipeRequest
deriving DecidableEq, Repr

/-- The slice of a `ProjectAnalysis` that `isUsableAsSeed` reads: the
optional `seedAnalysis` attached by a full analysis. -/
structure AnalysisWithSeed where
  seedAnalysis : Option SeedAnalysis
deriving DecidableEq, Repr

/-- `isUsableAsSeed(fpa)`: false without a seed analysis, otherwise
whether the optional transform-recipe requests contribute at least one
parameter between them. -/
def isUsableAsSeed (fpa : AnalysisWithSeed) : Bool :=
  match fpa.seedAnalysis with
  | none => false
  | some sa =>
    0 < ((sa.transformRecipes.filter (fun tr => tr.optional)).flatMap
      (fun tr => tr.recipe.parameters)).length

/-! ## Helper lemmas -/

/-- The weighting the spec describes: the supplied value, defaulting to
1 when the name is absent from the map. -/
def specWeighting (weightings : List (String × Nat)) (name : String) : ℚ :=
  match weightings.find? (fun kv => kv.1 == name) with
  | some kv => (kv.2 : ℚ)
  | none => 1

theorem effectiveWeighting_eq_spec (w : List (String × Nat)) (hw : ∀ kv ∈ w, 0 < kv.2)
    (n : String) : (effectiveWeighting w n : ℚ) = specWeighting w n := by
  unfold effectiveWeighting specWeighting
  cases hfind : w.find? (fun kv => kv.1 == n) with
  | none => simp
  | some kv =>
    have hmem : kv ∈ w := List.mem_of_find?_eq_some hfind
    have hpos : 0 < kv.2 := hw kv hmem
    simp [Nat.pos_iff_ne_zero.mp hpos]

theorem foldl_score_pair (f g : ScoreV → ℚ) :
    ∀ (l : List ScoreV) (a b : ℚ),
      l.foldl (fun (acc : ℚ × ℚ) s => (acc.1 + f s, acc.2 + g s)) (a, b) =
        (a + (l.map f).sum, b + (l.map g).sum)
  | [], a, b => by simp
  | s :: rest, a, b => by
    simp [foldl_score_pair f g rest (a + f s) (b + g s), add_assoc]

/-! ## C9 -/

/-- C9: `isUsableAsSeed(analysis)` returns true iff the analysis has a
`seedAnalysis` and the optional transform-recipe requests together
contribute at least one parameter. -/
theorem c9_isUsableAsSeed_iff (fpa : AnalysisWithSeed) :
    isUsableAsSeed fpa = true ↔
      ∃ sa, fpa.seedAnalysis = some sa ∧
        ∃ tr ∈ sa.transformRecipes, tr.optional = true ∧ tr.recipe.parameters ≠ [] := by
  unfold isUsableAsSeed
  cases hseed : fpa.seedAnalysis with
  | none => simp
  | some sa =>
    simp only [decide_eq_true_eq, Option.some.injEq]
    constructor
    · intro hlen
      refine ⟨sa, rfl, ?_⟩
      have hne : (sa.transformRecipes.filter (fun tr => tr.optional)).flatMap
          (fun tr => tr.recipe.parameters) ≠ [] := by
        intro hnil
        rw [hnil] at hlen
        simp at hlen
      rw [ne_eq, List.flatMap_eq_nil_iff] at hne
      push_neg at hne
      obtain ⟨tr, htr, hne⟩ := hne
      rw [List.mem_filter] at htr
      exact ⟨tr, htr.1, htr.2, hne⟩
    · rintro ⟨sa', hsa', tr, htr, hopt, hne⟩
      cases hsa'
      have hmem : tr ∈ sa.transformRecipes.filter (fun tr => tr.optional) :=
        List.mem_filter.mpr ⟨htr, hopt⟩
      obtain ⟨p, hp⟩ := List.exists_mem_of_ne_nil _ hne
      have hpf : p ∈ (sa.transformRecipes.filter (fun tr => tr.optional)).flatMap
          (fun tr => tr.recipe.parameters) :=
        List.mem_flatMap.mpr ⟨tr, hmem, hp⟩
      exact List.length_pos.mpr (List.ne_nil_of_mem hpf)

/-! ## C4 -/

/-- C4: `weightedCompositeScore` is `undefined` exactly on an empty
score set, and otherwise the weighted mean
`Σ(score × w(name)) / Σ(w(name))` with `w` the supplied weighting
defaulting to 1 for absent names. -/
theorem c4_weightedCompositeScore (i : Interp) (w : List (String × Nat))
    (hw : ∀ kv ∈ w, 0 < kv.2) :
    (weightedCompositeScore i w = none ↔ i.scores = []) ∧
    (i.scores ≠ [] →
      weightedCompositeScore i w =
        some ((i.scores.map (fun s => (s.score : ℚ) * specWeighting w s.name)).sum /
              (i.scores.map (fun s => specWeighting w s.name)).sum)) := by
  constructor
  · unfold weightedCompositeScore
    constructor
    · intro h
      by_cases hnil : i.scores.length = 0
      · exact List.length_eq_zero.mp hnil
      · simp [hnil] at h
    · intro h
      simp [h]
  · intro hne
    have hlen : ¬ i.scores.length = 0 := by
      simpa [List.length_eq_zero] using hne
    unfold weightedCompositeScore
    simp only [hlen, if_false]
    rw [foldl_score_pair (fun s => (s.score : ℚ) * (effectiveWeighting w s.name : ℚ))
      (fun s => (effectiveWeighting w s.name : ℚ)) i.scores 0 0]
    congr 1
    · rw [zero_add, zero_add]
      congr 1
      · exact congrArg List.sum (List.map_congr_left (fun s _ => by
          rw [effectiveWeighting_eq_spec w hw]))
      · exact congrArg List.sum (List.map_congr_left (fun s _ => by
          rw [effectiveWeighting_eq_spec w hw]))

/-- C4 witness: the spec's concrete examples, via
`c4_weightedCompositeScore`. -/
theorem c4_weightedCompositeScore_witness :
    weightedCompositeScore ⟨none, none, none, none, none, none, none, none, 0, 0, none,
        [⟨"dog", 5⟩, ⟨"cat", 3⟩]⟩ [("dog", 2)] = some ((2 * 5 + 3 : ℚ) / 3) := by
  have h := (c4_weightedCompositeScore
    ⟨none, none, none, none, none, none, none, none, 0, 0, none, [⟨"dog", 5⟩, ⟨"cat", 3⟩]⟩
    [("dog", 2)] (by decide)).2 (by decide)
  rw [h]
  simp [specWeighting, List.find?]
  norm_num

/-! ## C5 -/

/-- First-occurrence order, element by element: keep a name the first
time it is seen, drop it afterwards.  This is the order the spec
describes for the merged `referencedEnvironmentVariables` list. -/
def firstSeenFrom (acc : List String) : List String → List String
  | [] => acc
  | x :: rest =>
    if x ∈ acc then firstSeenFrom acc rest
    else firstSeenFrom (acc ++ [x]) rest

/-- The first-occurrence sublist of a name list. -/
def firstSeen (l : List String) : List String :=
  firstSeenFrom [] l

theorem firstSeenFrom_nodup (l : List String) :
    ∀ acc : List String, acc.Nodup → (firstSeenFrom acc l).Nodup := by
  induction l with
  | nil => intro acc h; exact h
  | cons x rest ih =>
    intro acc hacc
    unfold firstSeenFrom
    by_cases hx : x ∈ acc
    · simp only [hx, if_true]
      exact ih acc hacc
    · simp only [hx, if_false]
      refine ih (acc ++ [x]) ?_
      simp [List.nodup_append, hacc, hx]

theorem firstSeenFrom_append (l1 l2 : List String) :
    ∀ acc, firstSeenFrom acc (l1 ++ l2) = firstSeenFrom (firstSeenFrom acc l1) l2 := by
  induction l1 with
  | nil => intro acc; rfl
  | cons y ys ih =>
    intro acc
    simp only [List.cons_append, firstSeenFrom]
    by_cases hy : y ∈ acc
    · simp only [hy, if_true]
      exact ih acc
    · simp only [hy, if_false]
      exact ih (acc ++ [y])

theorem filter_step_eq_firstSeenFrom (vs : List String) :
    ∀ acc : List String, vs.Nodup →
      acc ++ vs.filter (fun e => !(acc.contains e)) = firstSeenFrom acc vs := by
  induction vs with
  | nil => intro acc _; simp [firstSeenFrom]
  | cons x rest ih =>
    intro acc hnd
    rw [List.nodup_cons] at hnd
    unfold firstSeenFrom
    by_cases hx : x ∈ acc
    · simp only [hx, if_true]
      rw [← ih acc hnd.2]
      congr 1
      simp [List.filter_cons, List.contains, List.elem_eq_mem, hx]
    · simp only [hx, if_false]
      rw [← ih (acc ++ [x]) hnd.2]
      have hpx : (fun e => !(acc.contains e)) x = true := by
        simp [List.contains, List.elem_eq_mem, hx]
      rw [List.filter_cons, if_pos hpx]
      have hfeq : rest.filter (fun e => !(acc.contains e)) =
          rest.filter (fun e => !((acc ++ [x]).contains e)) := by
        refine List.filter_congr ?_
        intro a ha
        have hax : a ≠ x := fun h => hnd.1 (h ▸ ha)
        simp [List.contains, List.elem_eq_mem, List.mem_append, hax]
      rw [hfeq]
      simp

theorem mergeEnvVars_spec (elems : List TechElem) :
    ∀ acc : List String, acc.Nodup →
      (∀ el ∈ elems, ∀ vs, el.referencedEnvironmentVariables = some vs → vs.Nodup) →
      mergeEnvVars acc elems =
        firstSeenFrom acc (elems.flatMap (fun el => el.referencedEnvironmentVariables.getD [])) ∧
      (mergeEnvVars acc elems).Nodup := by
  induction elems with
  | nil => intro acc hacc _; exact ⟨rfl, hacc⟩
  | cons s rest ih =>
    intro acc hacc hall
    have hrest : ∀ el ∈ rest, ∀ vs, el.referencedEnvironmentVariables = some vs → vs.Nodup :=
      fun el hel vs hvs => hall el (List.mem_cons_of_mem s hel) vs hvs
    unfold mergeEnvVars
    cases hs : s.referencedEnvironmentVariables with
    | none =>
      have := ih acc hacc hrest
      simpa [List.flatMap_cons, hs] using this
    | some vs =>
      have hvs : vs.Nodup := hall s (List.mem_cons_self s rest) vs hs
      have hstep : acc ++ vs.filter (fun e => !(acc.contains e)) = firstSeenFrom acc vs :=
        filter_step_eq_firstSeenFrom vs acc hvs
      have hstepnd : (acc ++ vs.filter (fun e => !(acc.contains e))).Nodup := by
        rw [hstep]
        exact firstSeenFrom_nodup vs acc hacc
      obtain ⟨h1, h2⟩ := ih (acc ++ vs.filter (fun e => !(acc.contains e))) hstepnd hrest
      refine ⟨?_, ?_⟩
      · show mergeEnvVars (acc ++ vs.filter (fun e => !(acc.contains e))) rest = _
        rw [h1, hstep, List.flatMap_cons, hs]
        simp only [Option.getD_some]
        exact (firstSeenFrom_append vs _ acc).symm
      · show (mergeEnvVars (acc ++ vs.filter (fun e => !(acc.contains e))) rest).Nodup
        exact h2

/-- C5 counterexample: a single scanner contributing
`["dogs", "dogs"]` — the filter only removes names already present
before the push, so the duplicate inside one contribution survives and
the analysis's `referencedEnvironmentVariables` holds a duplicate. -/
theorem c5_counterexample :
    analyze (E := Unit) [⟨true, .ok (some ⟨"toy", some ["dogs", "dogs"]⟩)⟩] =
      .ok ⟨[⟨"toy", some ["dogs", "dogs"]⟩], ["dogs", "dogs"]⟩ ∧
    ¬ (["dogs", "dogs"] : List String).Nodup :=
  ⟨rfl, by decide⟩

/-- C5 amended: when each merged element's contributed name list is
itself duplicate-free, the analysis's `referencedEnvironmentVariables`
list has no duplicates and equals the first-occurrence subsequence of
the concatenated contributions; a duplicate inside a single
contribution, however, survives the merge. -/
theorem c5_mergeEnvVars_nodup {E : Type} (regs : List (ScannerReg E)) (a : ProjectAnalysisV)
    (hok : analyze regs = .ok a)
    (hnodup : ∀ el ∈ a.elements, ∀ vs, el.referencedEnvironmentVariables = some vs → vs.Nodup) :
    a.referencedEnvironmentVariables.Nodup ∧
    a.referencedEnvironmentVariables =
      firstSeen (a.elements.flatMap (fun el => el.referencedEnvironmentVariables.getD [])) := by
  have henv : a.referencedEnvironmentVariables = mergeEnvVars [] a.elements := by
    unfold analyze at hok
    cases hw : awaitScanners (regs.filter (fun r => r.runWhen)) with
    | error e => rw [hw] at hok; cases hok
    | ok elems =>
      rw [hw] at hok
      cases hok
      rfl
  obtain ⟨h1, h2⟩ := mergeEnvVars_spec a.elements [] List.nodup_nil hnodup
  rw [henv]
  exact ⟨h2, h1⟩

/-- C5 witness: the spec's example — scanner A contributes
`["frogs","dogs"]`, scanner B `["dogs"]`, and the merged list is
exactly `["frogs","dogs"]`, via `c5_mergeEnvVars_nodup`. -/
theorem c5_mergeEnvVars_nodup_witness :
    (["frogs", "dogs"] : List String).Nodup ∧
    (["frogs", "dogs"] : List String) = firstSeen ["frogs", "dogs", "dogs"] :=
  c5_mergeEnvVars_nodup (E := Unit)
    [⟨true, .ok (some ⟨"toy", some ["frogs", "dogs"]⟩)⟩,
     ⟨true, .ok (some ⟨"toy2", some ["dogs"]⟩)⟩]
    ⟨[⟨"toy", some ["frogs", "dogs"]⟩, ⟨"toy2", some ["dogs"]⟩], ["frogs", "dogs"]⟩
    rfl (by decide)

/-! ## C6 -/

theorem performSeedAnalysisFrom_append_some (contribs : List ContributorReg) :
    ∀ (acc : List TransformRecipeRequest) (o : String) (opt : Bool) (raw : TransformRecipe),
      performSeedAnalysisFrom acc (contribs ++ [⟨o, opt, some raw⟩]) =
        performSeedAnalysisFrom acc contribs ++
          [⟨o, opt,
            ⟨raw.parameters.filter
                (fun p => !(hasParamNamed (performSeedAnalysisFrom acc contribs) p.name)),
             raw.transforms.filter
                (fun t => !(hasTransformNamed (performSeedAnalysisFrom acc contribs) t))⟩⟩] := by
  induction contribs with
  | nil => intro acc o opt raw; rfl
  | cons c rest ih =>
    intro acc o opt raw
    cases hc : c.result with
    | some raw' =>
      simp only [List.cons_append, performSeedAnalysisFrom, hc]
      exact ih _ o opt raw
    | none =>
      simp only [List.cons_append, performSeedAnalysisFrom, hc]
      exact ih acc o opt raw

theorem performSeedAnalysisFrom_append_none (contribs : List ContributorReg) :
    ∀ (acc : List TransformRecipeRequest) (o : String) (opt : Bool),
      performSeedAnalysisFrom acc (contribs ++ [⟨o, opt, none⟩]) =
        performSeedAnalysisFrom acc contribs := by
  induction contribs with
  | nil => intro acc o opt; rfl
  | cons c rest ih =>
    intro acc o opt
    cases hc : c.result with
    | some raw' =>
      simp only [List.cons_append, performSeedAnalysisFrom, hc]
      exact ih _ o opt
    | none =>
      simp only [List.cons_append, performSeedAnalysisFrom, hc]
      exact ih acc o opt

/-- Recipes are parameter-name-disjoint: no parameter of the first
recipe shares its name with a parameter of the second. -/
def ParamDisjoint (r1 r2 : TransformRecipeRequest) : Prop :=
  ∀ p1 ∈ r1.recipe.parameters, ∀ p2 ∈ r2.recipe.parameters, p1.name ≠ p2.name

theorem performSeedAnalysisFrom_pairwise (contribs : List ContributorReg) :
    ∀ acc : List TransformRecipeRequest, acc.Pairwise ParamDisjoint →
      (performSeedAnalysisFrom acc contribs).Pairwise ParamDisjoint := by
  induction contribs with
  | nil => intro acc h; exact h
  | cons c rest ih =>
    intro acc hacc
    cases hc : c.result with
    | none =>
      simp only [performSeedAnalysisFrom, hc]
      exact ih acc hacc
    | some raw =>
      simp only [performSeedAnalysisFrom, hc]
      refine ih _ ?_
      rw [List.pairwise_append]
      refine ⟨hacc, List.pairwise_singleton _ _, ?_⟩
      intro r1 hr1 r2 hr2
      rw [List.mem_singleton] at hr2
      subst hr2
      intro p1 hp1 p2 hp2
      have hp2f := List.of_mem_filter hp2
      intro heq
      rw [Bool.not_eq_true', ← Bool.not_eq_true] at hp2f
      apply hp2f
      unfold hasParamNamed
      rw [List.any_eq_true]
      refine ⟨p1, List.mem_flatMap.mpr ⟨r1, hr1, hp1⟩, ?_⟩
      simp [heq]

/-- C6 counterexample: one contributor proposing two parameters both
named `thing` — the collision filter only checks earlier-accepted
recipes, not the recipe being built, so both identically-named
parameters survive in the merged result. -/
theorem c6_counterexample :
    ¬ ((((performSeedAnalysis [⟨"a", true, some ⟨[⟨"thing"⟩, ⟨"thing"⟩], []⟩⟩]).flatMap
        (fun t => t.recipe.parameters)).filter (fun p => p.name == "thing")).length ≤ 1) := by
  decide

/-- C6 amended: contributors are processed sequentially in
registration order; a later contributor's parameter is dropped exactly
when some earlier-accepted recipe already contains a parameter of the
same name (and likewise for transforms by name), so each parameter name
reaches at most one recipe of the result — distinct accepted recipes
never share a parameter name, and when two contributors both propose
`thing` only the first-registered one keeps it — but identically-named
parameters proposed together by a single contributor all survive inside
that one recipe. -/
theorem c6_param_dedup_amended (contribs : List ContributorReg) (o : String) (opt : Bool)
    (raw : TransformRecipe) :
    performSeedAnalysis (contribs ++ [⟨o, opt, some raw⟩]) =
      performSeedAnalysis contribs ++
        [⟨o, opt,
          ⟨raw.parameters.filter
              (fun p => !(hasParamNamed (performSeedAnalysis contribs) p.name)),
           raw.transforms.filter
              (fun t => !(hasTransformNamed (performSeedAnalysis contribs) t))⟩⟩] ∧
    performSeedAnalysis (contribs ++ [⟨o, opt, none⟩]) = performSeedAnalysis contribs ∧
    (performSeedAnalysis contribs).Pairwise ParamDisjoint ∧
    (performSeedAnalysis
        [⟨"first", true, some ⟨[⟨"thing"⟩], []⟩⟩,
         ⟨"second", true, some ⟨[⟨"thing"⟩], []⟩⟩]).flatMap
      (fun t => t.recipe.parameters) = [⟨"thing"⟩] :=
  ⟨performSeedAnalysisFrom_append_some contribs [] o opt raw,
   performSeedAnalysisFrom_append_none contribs [] o opt,
   performSeedAnalysisFrom_pairwise contribs [] List.Pairwise.nil,
   by decide⟩

/-! ## C8 -/

theorem awaitScanners_error {E : Type} (pre : List (ScannerReg E)) (r : ScannerReg E)
    (post : List (ScannerReg E)) (e : E) (herr : r.result = .error e)
    (hpre : ∀ x ∈ pre, ∃ v, x.result = .ok v) :
    awaitScanners (pre ++ r :: post) = .error e := by
  induction pre with
  | nil =>
    simp only [List.nil_append, awaitScanners, herr]
  | cons x rest ih =>
    obtain ⟨v, hv⟩ := hpre x (List.mem_cons_self x rest)
    have htail := ih (fun y hy => hpre y (List.mem_cons_of_mem x hy))
    simp only [List.cons_append, awaitScanners, hv, List.append_eq, htail]

/-- C8: if an eligible scanner's invocation rejects (all eligible
scanners listed before it having resolved), the whole `analyze` call
rejects with that error — no Analysis is produced and no other
scanner's result is merged. -/
theorem c8_scanner_failure_aborts {E : Type} (regs pre post : List (ScannerReg E))
    (r : ScannerReg E) (e : E)
    (hsplit : regs.filter (fun x => x.runWhen) = pre ++ r :: post)
    (herr : r.result = .error e)
    (hpre : ∀ x ∈ pre, ∃ v, x.result = .ok v) :
    analyze regs = .error e := by
  unfold analyze
  rw [hsplit, awaitScanners_error pre r post e herr hpre]

/-- C8 witness: one resolving scanner followed by one rejecting
scanner — `analyze` rejects with the second scanner's error, via
`c8_scanner_failure_aborts`. -/
theorem c8_scanner_failure_aborts_witness :
    analyze (E := String)
      [⟨true, .ok (some ⟨"toy", some ["frogs"]⟩)⟩, ⟨true, .error "boom"⟩] =
      .error "boom" :=
  c8_scanner_failure_aborts
    [⟨true, .ok (some ⟨"toy", some ["frogs"]⟩)⟩, ⟨true, .error "boom"⟩]
    [⟨true, .ok (some ⟨"toy", some ["frogs"]⟩)⟩] [] ⟨true, .error "boom"⟩ "boom"
    rfl rfl
    (by
      intro x hx
      rw [List.mem_singleton] at hx
      exact ⟨some ⟨"toy", some ["frogs"]⟩, by rw [hx]⟩)

/-! ## C7 -/

theorem runInterpretation_filter {σ : Type} (regs : List (InterpreterReg σ)) :
    ∀ s : σ, runInterpretation regs s =
      runInterpretation (regs.filter (fun r => r.runWhen)) s := by
  induction regs with
  | nil => intro s; rfl
  | cons r rest ih =>
    intro s
    by_cases hr : r.runWhen
    · rw [List.filter_cons_of_pos (by simpa using hr)]
      simp only [runInterpretation, hr, if_true]
      rw [ih]
    · rw [List.filter_cons_of_neg (by simpa using hr)]
      simp only [runInterpretation, hr, if_false]
      exact ih s

theorem runInterpretation_state {σ : Type} (regs : List (InterpreterReg σ)) :
    ∀ s : σ, (runInterpretation regs s).1 = applyEnrich (regs.filter (fun r => r.runWhen)) s := by
  induction regs with
  | nil => intro s; rfl
  | cons r rest ih =>
    intro s
    by_cases hr : r.runWhen
    · rw [List.filter_cons_of_pos (by simpa using hr)]
      simp only [runInterpretation, hr, if_true, applyEnrich]
      exact ih (r.enrich s).1
    · rw [List.filter_cons_of_neg (by simpa using hr)]
      simp only [runInterpretation, hr, if_false]
      exact ih s

theorem runInterpretation_chosen_subset {σ : Type} (regs : List (InterpreterReg σ)) :
    ∀ (s : σ) (n : Nat), n ∈ (runInterpretation regs s).2 → n ∈ regs.map (fun r => r.id) := by
  induction regs with
  | nil => intro s n h; exact absurd h (List.not_mem_nil n)
  | cons r rest ih =>
    intro s n h
    by_cases hr : r.runWhen
    · simp only [runInterpretation, hr, if_true] at h
      rw [List.mem_append] at h
      rcases h with h | h
      · rcases hb : (r.enrich s).2 with _ | _
        · simp [hb] at h
        · simp [hb] at h
          subst h
          exact List.mem_map_of_mem (fun r => r.id) (List.mem_cons_self r rest)
      · exact List.mem_cons_of_mem _ (ih (r.enrich s).1 n h)
    · simp only [runInterpretation, hr, if_false] at h
      exact List.mem_cons_of_mem _ (ih s n h)

theorem runInterpretation_chosen_iff {σ : Type} (es : List (InterpreterReg σ)) :
    ∀ (s : σ), (∀ r ∈ es, r.runWhen = true) → (es.map (fun r => r.id)).Nodup →
      ∀ k : Fin es.length,
        ((es.get k).id ∈ (runInterpretation es s).2 ↔
          ((es.get k).enrich (applyEnrich (es.take k.1) s)).2 = true) := by
  induction es with
  | nil => intro s _ _ k; exact absurd k.2 (by simp)
  | cons r rest ih =>
    intro s hall hnd k
    have hr : r.runWhen = true := hall r (List.mem_cons_self r rest)
    rw [List.map_cons, List.nodup_cons] at hnd
    have hstep : runInterpretation (r :: rest) s =
        ((runInterpretation rest (r.enrich s).1).1,
          (if (r.enrich s).2 then [r.id] else []) ++ (runInterpretation rest (r.enrich s).1).2) := by
      simp [runInterpretation, hr]
    rcases k with ⟨kv, hk⟩
    cases kv with
    | zero =>
      simp only [List.get, hstep, List.take, applyEnrich]
      constructor
      · intro hmem
        rw [List.mem_append] at hmem
        rcases hmem with hmem | hmem
        · rcases hb : (r.enrich s).2 with _ | _
          · simp [hb] at hmem
          · rfl
        · exact absurd (runInterpretation_chosen_subset rest (r.enrich s).1 r.id hmem) hnd.1
      · intro hb
        rw [List.mem_append, hb]
        exact Or.inl (List.mem_singleton_self r.id)
    | succ kv' =>
      have hk' : kv' < rest.length := Nat.lt_of_succ_lt_succ hk
      have hall' : ∀ x ∈ rest, x.runWhen = true := fun x hx => hall x (List.mem_cons_of_mem r hx)
      have := ih (r.enrich s).1 hall' hnd.2 ⟨kv', hk'⟩
      simp only [List.get, hstep, List.take, applyEnrich]
      rw [← this]
      constructor
      · intro hmem
        rw [List.mem_append] at hmem
        rcases hmem with hmem | hmem
        · exfalso
          rcases hb : (r.enrich s).2 with _ | _
          · simp [hb] at hmem
          · simp [hb] at hmem
            apply hnd.1
            rw [← hmem]
            exact List.mem_map_of_mem (fun x => x.id) (List.get_mem rest kv' hk')
        · exact hmem
      · intro hmem
        rw [List.mem_append]
        exact Or.inr hmem

/-- C7: during an interpret run, interpreters whose `runWhen` is false
contribute nothing (neither state changes nor membership in
`chosenInterpreters`); the final interpretation state is the
composition of the eligible interpreters' `enrich` mutations,
independent of the booleans they return; and — when interpreter
identities are distinct — the k-th eligible interpreter appears in
`chosenInterpreters` iff its `enrich` call, run on the state produced
by the preceding eligible enrichments, resolved to true. -/
theorem c7_enrich_semantics {σ : Type} (regs : List (InterpreterReg σ)) (s : σ)
    (hnd : ((regs.filter (fun r => r.runWhen)).map (fun r => r.id)).Nodup) :
    runInterpretation regs s = runInterpretation (regs.filter (fun r => r.runWhen)) s ∧
    (runInterpretation regs s).1 = applyEnrich (regs.filter (fun r => r.runWhen)) s ∧
    ∀ k : Fin (regs.filter (fun r => r.runWhen)).length,
      (((regs.filter (fun r => r.runWhen)).get k).id ∈ (runInterpretation regs s).2 ↔
        (((regs.filter (fun r => r.runWhen)).get k).enrich
          (applyEnrich ((regs.filter (fun r => r.runWhen)).take k.1) s)).2 = true) := by
  refine ⟨runInterpretation_filter regs s, runInterpretation_state regs s, ?_⟩
  intro k
  rw [runInterpretation_filter regs s]
  exact runInterpretation_chosen_iff (regs.filter (fun r => r.runWhen)) s
    (fun r hr => (List.mem_filter.mp hr).2) hnd k

/-- C7 witness: three interpreters — eligible returning true, skipped,
eligible returning false — via `c7_enrich_semantics`: the first is
chosen, and the final state shows every eligible enrichment applied
regardless of the returned booleans. -/
theorem c7_enrich_semantics_witness :
    (runInterpretation
      [⟨0, true, fun s => (s + 1, true)⟩, ⟨1, false, fun s => (s + 10, true)⟩,
       ⟨2, true, fun s => (s + 100, false)⟩] (0 : Nat)).1 =
      applyEnrich [⟨0, true, fun s => (s + 1, true)⟩, ⟨2, true, fun s => (s + 100, false)⟩]
        (0 : Nat) ∧
    (0 ∈ (runInterpretation
      [⟨0, true, fun s => (s + 1, true)⟩, ⟨1, false, fun s => (s + 10, true)⟩,
       ⟨2, true, fun s => (s + 100, false)⟩] (0 : Nat)).2 ↔ True) := by
  have h := c7_enrich_semantics
    [⟨0, true, fun s => (s + 1, true)⟩, ⟨1, false, fun s => (s + 10, true)⟩,
     ⟨2, true, fun s => (s + 100, false)⟩] (0 : Nat) (by decide)
  refine ⟨h.2.1, ?_⟩
  have h0 := h.2.2 ⟨0, by decide⟩
  simp only [iff_true]
  exact h0.mpr rfl

/-! ## C2 -/

/-- C2: when the analysis carries a `preferences` element, the `Goals`
value returned by `checkGoals` contains exactly the assembled
checks-phase goals whose display name is not in `disabledGoals` — the
veto is applied after assembly by rebuilding the `checks` collection —
and without a `preferences` element nothing is excluded. -/
theorem c2_check_goal_suppression (analyzer : AnalyzerGoals) (i : Interp) :
    (∀ p, i.preferences = some p →
      (checkGoals analyzer i).label = "checks" ∧
      ∀ g, g ∈ (checkGoals analyzer i).goals ↔
        (g ∈ (checkAssembled analyzer i).goals ∧
          p.disabledGoals.contains g.displayName = false)) ∧
    (i.preferences = none → checkGoals analyzer i = checkAssembled analyzer i) := by
  constructor
  · intro p hp
    simp only [checkGoals, hp]
    refine ⟨by trivial, ?_⟩
    intro g
    rw [List.mem_filter]
    simp [Bool.not_eq_true']
  · intro hp
    simp only [checkGoals, hp]

/-- C2 witness: an interpretation with one registered autofix and a
`preferences` element disabling `Autofix` — the autofix goal is in the
assembled checks set but filtered out of the returned one, via
`c2_check_goal_suppression`. -/
theorem c2_check_goal_suppression_witness :
    (⟨"Autofix", []⟩ : Goal) ∈
      (checkAssembled ⟨⟨"Autofix", []⟩, ⟨"CodeInspection", []⟩⟩
        ⟨none, none, none, none, none, none, none, none, 1, 0, some ⟨["Autofix"]⟩, []⟩).goals ∧
    (⟨"Autofix", []⟩ : Goal) ∉
      (checkGoals ⟨⟨"Autofix", []⟩, ⟨"CodeInspection", []⟩⟩
        ⟨none, none, none, none, none, none, none, none, 1, 0, some ⟨["Autofix"]⟩, []⟩).goals := by
  have h := ((c2_check_goal_suppression ⟨⟨"Autofix", []⟩, ⟨"CodeInspection", []⟩⟩
    ⟨none, none, none, none, none, none, none, none, 1, 0, some ⟨["Autofix"]⟩, []⟩).1
    ⟨["Autofix"]⟩ rfl).2 ⟨"Autofix", []⟩
  refine ⟨by decide, ?_⟩
  intro hmem
  exact absurd ((h.mp hmem).2) (by decide)

/-! ## C3 -/

theorem pushEdges_goals (gs : GoalsV) (pre : List Goal) :
    (pushEdges gs pre).goals =
      gs.goals.map (fun g => { g with dependsOn := g.dependsOn ++ pre.map Goal.displayName }) :=
  rfl

theorem pushEdges_names (gs : GoalsV) (pre : List Goal) :
    (pushEdges gs pre).goals.map Goal.displayName = gs.goals.map Goal.displayName := by
  rw [pushEdges_goals, List.map_map]
  exact List.map_congr_left (fun g _ => rfl)

theorem controlGoals_set_build (i : Interp) (x : Option GoalsV) :
    controlGoals { i with buildGoals := x } = controlGoals i := rfl

theorem checkGoals_set_build (analyzer : AnalyzerGoals) (i : Interp) (x : Option GoalsV) :
    checkGoals analyzer { i with buildGoals := x } = checkGoals analyzer i := rfl

/-- C3 counterexample: a phase builder is not a pure function of the
interpretation — `buildGoals`, run on an interpretation with a cancel
goal and a populated build slot, changes the interpretation (it appends
edges, in place, to the stored build goal), and running it twice is
observably different from running it once. -/
theorem c3_counterexample :
    (buildGoals ⟨⟨"Autofix", []⟩, ⟨"CodeInspection", []⟩⟩
        ⟨some ⟨"cancel", []⟩, none, none, some ⟨"build", [⟨"bld", []⟩]⟩,
          none, none, none, none, 0, 0, none, []⟩).2 ≠
      ⟨some ⟨"cancel", []⟩, none, none, some ⟨"build", [⟨"bld", []⟩]⟩,
        none, none, none, none, 0, 0, none, []⟩ ∧
    (buildGoals ⟨⟨"Autofix", []⟩, ⟨"CodeInspection", []⟩⟩
        (buildGoals ⟨⟨"Autofix", []⟩, ⟨"CodeInspection", []⟩⟩
          ⟨some ⟨"cancel", []⟩, none, none, some ⟨"build", [⟨"bld", []⟩]⟩,
            none, none, none, none, 0, 0, none, []⟩).2).2 ≠
      (buildGoals ⟨⟨"Autofix", []⟩, ⟨"CodeInspection", []⟩⟩
        ⟨some ⟨"cancel", []⟩, none, none, some ⟨"build", [⟨"bld", []⟩]⟩,
          none, none, none, none, 0, 0, none, []⟩).2 := by
  constructor
  · decide
  · decide

/-- C3 amended: the phase builders are not pure functions of the
Interpretation.  `buildGoals` returns the build slot's `Goals` —
`undefined`, with the Interpretation unchanged, when that slot is
empty — and otherwise appends the control-phase and checks edges in
place to every stored build goal, updating the build slot while leaving
the other fields unchanged; a second invocation appends the same edges
again.  The later builders evaluate their precondition chain before
consulting their own slot, so `testGoals` invoked with an empty test
slot but a populated build slot returns `undefined` while still
mutating the build slot in exactly that way. -/
theorem c3_phase_builder_mutation (analyzer : AnalyzerGoals) (i : Interp) :
    (i.buildGoals = none → buildGoals analyzer i = (none, i)) ∧
    (∀ b, i.buildGoals = some b →
      ∃ b', (buildGoals analyzer i).1 = some b' ∧
        (buildGoals analyzer i).2 = { i with buildGoals := some b' } ∧
        b'.goals.map Goal.displayName = b.goals.map Goal.displayName ∧
        (∀ g' ∈ b'.goals, ∃ g ∈ b.goals,
          g'.dependsOn = g.dependsOn ++
            ((controlGoals i).goals ++ (checkGoals analyzer i).goals).map Goal.displayName) ∧
        (∃ b'', (buildGoals analyzer (buildGoals analyzer i).2).2 =
            { i with buildGoals := some b'' } ∧
          ∀ g'' ∈ b''.goals, ∃ g ∈ b.goals,
            g''.dependsOn =
              (g.dependsOn ++
                ((controlGoals i).goals ++ (checkGoals analyzer i).goals).map Goal.displayName) ++
              ((controlGoals i).goals ++ (checkGoals analyzer i).goals).map Goal.displayName) ∧
        (i.testGoals = none →
          testGoals analyzer i = (none, { i with buildGoals := some b' }))) := by
  constructor
  · intro h
    simp only [buildGoals, h]
  · intro b hb
    refine ⟨pushEdges b ((controlGoals i).goals ++ (checkGoals analyzer i).goals),
      ?_, ?_, pushEdges_names b _, ?_, ?_, ?_⟩
    · simp only [buildGoals, hb]
    · simp only [buildGoals, hb]
    · intro g' hg'
      rw [pushEdges_goals] at hg'
      obtain ⟨g, hg, hgeq⟩ := List.mem_map.mp hg'
      exact ⟨g, hg, by rw [← hgeq, List.map_append]⟩
    · refine ⟨pushEdges (pushEdges b ((controlGoals i).goals ++ (checkGoals analyzer i).goals))
        ((controlGoals i).goals ++ (checkGoals analyzer i).goals), ?_, ?_⟩
      · have h1 : (buildGoals analyzer i).2 = { i with buildGoals := some (pushEdges b ((controlGoals i).goals ++ (checkGoals analyzer i).goals)) } := by
          simp only [buildGoals, hb]
        rw [h1]
        simp only [buildGoals, controlGoals_set_build, checkGoals_set_build]
      · intro g'' hg''
        rw [pushEdges_goals] at hg''
        obtain ⟨g', hg', hgeq'⟩ := List.mem_map.mp hg''
        rw [pushEdges_goals] at hg'
        obtain ⟨g, hg, hgeq⟩ := List.mem_map.mp hg'
        subst hgeq'
        subst hgeq
        refine ⟨g, hg, ?_⟩
        simp [List.map_append]
    · intro ht
      have h1 : buildGoals analyzer i = (some (pushEdges b ((controlGoals i).goals ++ (checkGoals analyzer i).goals)), { i with buildGoals := some (pushEdges b ((controlGoals i).goals ++ (checkGoals analyzer i).goals)) }) := by
        simp only [buildGoals, hb]
      have hts : ({ i with buildGoals := some (pushEdges b ((controlGoals i).goals ++ (checkGoals analyzer i).goals)) } : Interp).testGoals = none := ht
      simp only [testGoals, h1, hts]

/-- C3 witness: `c3_phase_builder_mutation` applied to the
counterexample's interpretation — the returned value is the updated
build slot, and `testGoals` on the same interpretation (its test slot
empty) returns `undefined` while performing the same build-slot
update. -/
theorem c3_phase_builder_mutation_witness :
    ∃ b', (buildGoals ⟨⟨"Autofix", []⟩, ⟨"CodeInspection", []⟩⟩
        ⟨some ⟨"cancel", []⟩, none, none, some ⟨"build", [⟨"bld", []⟩]⟩,
          none, none, none, none, 0, 0, none, []⟩).1 = some b' ∧
      (buildGoals ⟨⟨"Autofix", []⟩, ⟨"CodeInspection", []⟩⟩
        ⟨some ⟨"cancel", []⟩, none, none, some ⟨"build", [⟨"bld", []⟩]⟩,
          none, none, none, none, 0, 0, none, []⟩).2 =
        { cancelGoal := some ⟨"cancel", []⟩, queueGoal := none, checkGoals := none,
          buildGoals := some b', testGoals := none, containerBuildGoals := none,
          releaseGoals := none, deployGoals := none, autofixes := 0, inspections := 0,
          preferences := none, scores := [] } ∧
      testGoals ⟨⟨"Autofix", []⟩, ⟨"CodeInspection", []⟩⟩
        ⟨some ⟨"cancel", []⟩, none, none, some ⟨"build", [⟨"bld", []⟩]⟩,
          none, none, none, none, 0, 0, none, []⟩ =
        (none,
          { cancelGoal := some ⟨"cancel", []⟩, queueGoal := none, checkGoals := none,
            buildGoals := some b', testGoals := none, containerBuildGoals := none,
            releaseGoals := none, deployGoals := none, autofixes := 0, inspections := 0,
            preferences := none, scores := [] }) := by
  obtain ⟨b', h1, h2, -, -, -, h6⟩ :=
    (c3_phase_builder_mutation ⟨⟨"Autofix", []⟩, ⟨"CodeInspection", []⟩⟩
      ⟨some ⟨"cancel", []⟩, none, none, some ⟨"build", [⟨"bld", []⟩]⟩,
        none, none, none, none, 0, 0, none, []⟩).2 ⟨"build", [⟨"bld", []⟩]⟩ rfl
  exact ⟨b', h1, h2, h6 rfl⟩

/-! ## C1 -/

/-- The edge list every build-phase goal receives: the control goals
followed by the checks goals. -/
def buildEdges (analyzer : AnalyzerGoals) (i : Interp) : List Goal :=
  (controlGoals i).goals ++ (checkGoals analyzer i).goals

/-- The interpretation with its `buildGoals` slot overwritten — the
state after the in-place edge push of the build phase. -/
def setBuild (i : Interp) (x : Option GoalsV) : Interp :=
  { i with buildGoals := x }

theorem buildEdges_setBuild (analyzer : AnalyzerGoals) (i : Interp) (x : Option GoalsV) :
    buildEdges analyzer (setBuild i x) = buildEdges analyzer i := rfl

theorem setBuild_setBuild (i : Interp) (x y : Option GoalsV) :
    setBuild (setBuild i x) y = setBuild i y := rfl

theorem buildGoals_char (analyzer : AnalyzerGoals) (i : Interp) (b : GoalsV)
    (hb : i.buildGoals = some b) :
    buildGoals analyzer i =
      (some (pushEdges b (buildEdges analyzer i)),
        setBuild i (some (pushEdges b (buildEdges analyzer i)))) := by
  simp only [buildGoals, hb, buildEdges, setBuild]

theorem testGoals_none_char (analyzer : AnalyzerGoals) (i : Interp) (b : GoalsV)
    (hb : i.buildGoals = some b) (ht : i.testGoals = none) :
    testGoals analyzer i =
      (none, setBuild i (some (pushEdges b (buildEdges analyzer i)))) := by
  have hts : (setBuild i (some (pushEdges b (buildEdges analyzer i)))).testGoals = none := ht
  simp only [testGoals, buildGoals_char analyzer i b hb, hts]

theorem containerGoals_none_char (analyzer : AnalyzerGoals) (i : Interp) (b : GoalsV)
    (hb : i.buildGoals = some b) (ht : i.testGoals = none)
    (hc : i.containerBuildGoals = none) :
    containerGoals analyzer i =
      (none, setBuild i
        (some (pushEdges (pushEdges b (buildEdges analyzer i)) (buildEdges analyzer i)))) := by
  have h2 := buildGoals_char analyzer (setBuild i (some (pushEdges b (buildEdges analyzer i))))
    (pushEdges b (buildEdges analyzer i)) rfl
  rw [buildEdges_setBuild, setBuild_setBuild] at h2
  have hcs : (setBuild i
      (some (pushEdges (pushEdges b (buildEdges analyzer i)) (buildEdges analyzer i)))).containerBuildGoals = none := hc
  simp only [containerGoals, testGoals_none_char analyzer i b hb ht, h2, hcs]

theorem releaseGoals_none_char (analyzer : AnalyzerGoals) (i : Interp) (b : GoalsV)
    (hb : i.buildGoals = some b) (ht : i.testGoals = none)
    (hc : i.containerBuildGoals = none) (hr : i.releaseGoals = none) :
    releaseGoals analyzer i =
      (none, setBuild i
        (some (pushEdges (pushEdges (pushEdges (pushEdges b (buildEdges analyzer i)) (buildEdges analyzer i)) (buildEdges analyzer i)) (buildEdges analyzer i)))) := by
  have h2 := testGoals_none_char analyzer
    (setBuild i (some (pushEdges (pushEdges b (buildEdges analyzer i)) (buildEdges analyzer i))))
    (pushEdges (pushEdges b (buildEdges analyzer i)) (buildEdges analyzer i)) rfl ht
  rw [buildEdges_setBuild, setBuild_setBuild] at h2
  have h3 := buildGoals_char analyzer
    (setBuild i (some (pushEdges (pushEdges (pushEdges b (buildEdges analyzer i)) (buildEdges analyzer i)) (buildEdges analyzer i))))
    (pushEdges (pushEdges (pushEdges b (buildEdges analyzer i)) (buildEdges analyzer i)) (buildEdges analyzer i)) rfl
  rw [buildEdges_setBuild, setBuild_setBuild] at h3
  have hrs : (setBuild i
      (some (pushEdges (pushEdges (pushEdges (pushEdges b (buildEdges analyzer i)) (buildEdges analyzer i)) (buildEdges analyzer i)) (buildEdges analyzer i)))).releaseGoals = none := hr
  simp only [releaseGoals, containerGoals_none_char analyzer i b hb ht hc, h2, h3, hrs]

theorem deployGoals_char (analyzer : AnalyzerGoals) (i : Interp) (b d : GoalsV)
    (hb : i.buildGoals = some b) (ht : i.testGoals = none)
    (hc : i.containerBuildGoals = none) (hr : i.releaseGoals = none)
    (hd : i.deployGoals = some d) :
    ∃ (b8 : GoalsV) (j : Interp),
      b8.goals.map Goal.displayName = b.goals.map Goal.displayName ∧
      deployGoals analyzer i =
        (some (pushEdges d ((controlGoals i).goals ++ b8.goals)), j) ∧
      j.deployGoals = some (pushEdges d ((controlGoals i).goals ++ b8.goals)) := by
  have e4 := releaseGoals_none_char analyzer i b hb ht hc hr
  set b4 := pushEdges (pushEdges (pushEdges (pushEdges b (buildEdges analyzer i)) (buildEdges analyzer i)) (buildEdges analyzer i)) (buildEdges analyzer i) with hb4
  have e6 := containerGoals_none_char analyzer (setBuild i (some b4)) b4 rfl ht hc
  rw [buildEdges_setBuild, setBuild_setBuild] at e6
  set b6 := pushEdges (pushEdges b4 (buildEdges analyzer i)) (buildEdges analyzer i) with hb6
  have e7 := testGoals_none_char analyzer (setBuild i (some b6)) b6 rfl ht
  rw [buildEdges_setBuild, setBuild_setBuild] at e7
  set b7 := pushEdges b6 (buildEdges analyzer i) with hb7
  have e8 := buildGoals_char analyzer (setBuild i (some b7)) b7 rfl
  rw [buildEdges_setBuild, setBuild_setBuild] at e8
  set b8 := pushEdges b7 (buildEdges analyzer i) with hb8
  have hds : (setBuild i (some b8)).deployGoals = some d := hd
  have hcg : controlGoals (setBuild i (some b8)) = controlGoals i := rfl
  have hrunEq : deployGoals analyzer i = (some (pushEdges d ((controlGoals i).goals ++ b8.goals)), { setBuild i (some b8) with deployGoals := some (pushEdges d ((controlGoals i).goals ++ b8.goals)) }) := by
    simp only [deployGoals, e4, e6, e7, e8, hds, hcg]
  refine ⟨b8, _, ?_, hrunEq, rfl⟩
  rw [hb8, hb7, hb6, hb4]
  rw [pushEdges_names, pushEdges_names, pushEdges_names, pushEdges_names,
    pushEdges_names, pushEdges_names, pushEdges_names, pushEdges_names]

theorem mem_pushEdges_dependsOn (gs : GoalsV) (pre : List Goal) (g' : Goal)
    (hg' : g' ∈ (pushEdges gs pre).goals) :
    ∀ n ∈ pre.map Goal.displayName, n ∈ g'.dependsOn := by
  rw [pushEdges_goals] at hg'
  obtain ⟨g, _, hgeq⟩ := List.mem_map.mp hg'
  intro n hn
  rw [← hgeq]
  exact List.mem_append_right _ hn

/-- C1: on an interpretation where only the `buildGoals` and
`deployGoals` slots are populated (check, test, container-build and
release all empty), `deployGoals` gives every deploy goal dependency
edges on every control-phase goal and on every goal of the build
phase — the nearest non-empty preceding phase found by the backward
`||` search — not merely on the immediately preceding empty phase. -/
theorem c1_deploy_depends_on_build (analyzer : AnalyzerGoals) (i : Interp) (b d : GoalsV)
    (_hchk : i.checkGoals = none) (hb : i.buildGoals = some b) (ht : i.testGoals = none)
    (hc : i.containerBuildGoals = none) (hr : i.releaseGoals = none)
    (hd : i.deployGoals = some d) :
    ∃ d', (deployGoals analyzer i).1 = some d' ∧
      (deployGoals analyzer i).2.deployGoals = some d' ∧
      d'.goals.length = d.goals.length ∧
      ∀ g' ∈ d'.goals,
        (∀ c ∈ (controlGoals i).goals, c.displayName ∈ g'.dependsOn) ∧
        (∀ bg ∈ b.goals, bg.displayName ∈ g'.dependsOn) := by
  obtain ⟨b8, j, hnames, hrun, hj⟩ := deployGoals_char analyzer i b d hb ht hc hr hd
  refine ⟨pushEdges d ((controlGoals i).goals ++ b8.goals), ?_, ?_, ?_, ?_⟩
  · rw [hrun]
  · rw [hrun]
    exact hj
  · rw [pushEdges_goals, List.length_map]
  · intro g' hg'
    have hdep := mem_pushEdges_dependsOn d ((controlGoals i).goals ++ b8.goals) g' hg'
    constructor
    · intro c hcmem
      exact hdep c.displayName
        (List.mem_map_of_mem Goal.displayName (List.mem_append_left _ hcmem))
    · intro bg hbg
      have hbname : bg.displayName ∈ b8.goals.map Goal.displayName := by
        rw [hnames]
        exact List.mem_map_of_mem Goal.displayName hbg
      refine hdep bg.displayName ?_
      rw [List.map_append]
      exact List.mem_append_right _ hbname

/-- C1 witness: the two-phase scenario (a cancel goal, one build goal
`bld`, one deploy goal `dep`) via `c1_deploy_depends_on_build`. -/
theorem c1_deploy_depends_on_build_witness :
    ∃ d', (deployGoals ⟨⟨"Autofix", []⟩, ⟨"CodeInspection", []⟩⟩
        ⟨some ⟨"cancel", []⟩, none, none, some ⟨"build", [⟨"bld", []⟩]⟩, none, none, none,
          some ⟨"deploy", [⟨"dep", []⟩]⟩, 0, 0, none, []⟩).1 = some d' ∧
      (deployGoals ⟨⟨"Autofix", []⟩, ⟨"CodeInspection", []⟩⟩
        ⟨some ⟨"cancel", []⟩, none, none, some ⟨"build", [⟨"bld", []⟩]⟩, none, none, none,
          some ⟨"deploy", [⟨"dep", []⟩]⟩, 0, 0, none, []⟩).2.deployGoals = some d' ∧
      d'.goals.length = 1 ∧
      ∀ g' ∈ d'.goals,
        (∀ c ∈ (controlGoals
          ⟨some ⟨"cancel", []⟩, none, none, some ⟨"build", [⟨"bld", []⟩]⟩, none, none, none,
            some ⟨"deploy", [⟨"dep", []⟩]⟩, 0, 0, none, []⟩).goals,
          c.displayName ∈ g'.dependsOn) ∧
        (∀ bg ∈ (GoalsV.mk "build" [⟨"bld", []⟩]).goals, bg.displayName ∈ g'.dependsOn) :=
  c1_deploy_depends_on_build ⟨⟨"Autofix", []⟩, ⟨"CodeInspection", []⟩⟩
    ⟨some ⟨"cancel", []⟩, none, none, some ⟨"build", [⟨"bld", []⟩]⟩, none, none, none,
      some ⟨"deploy", [⟨"dep", []⟩]⟩, 0, 0, none, []⟩
    ⟨"build", [⟨"bld", []⟩]⟩ ⟨"deploy", [⟨"dep", []⟩]⟩ rfl rfl rfl rfl rfl rfl

/-! ## C10 -/

theorem one_le_effectiveWeighting (w : List (String × Nat)) (n : String) :
    1 ≤ effectiveWeighting w n := by
  unfold effectiveWeighting
  cases w.find? (fun kv => kv.1 == n) with
  | none => exact le_refl 1
  | some kv =>
    by_cases h : kv.2 = 0
    · simp [h]
    · simp only [h, if_false]
      omega

theorem weighted_sum_lower (w : List (String × Nat)) (lo : ℚ) :
    ∀ l : List ScoreV, (∀ s ∈ l, lo ≤ (s.score : ℚ)) →
      lo * (l.map (fun s => (effectiveWeighting w s.name : ℚ))).sum ≤
        (l.map (fun s => (s.score : ℚ) * (effectiveWeighting w s.name : ℚ))).sum
  | [], _ => by simp
  | s :: rest, h => by
    simp only [List.map_cons, List.sum_cons, mul_add]
    have hwpos : (0 : ℚ) ≤ (effectiveWeighting w s.name : ℚ) := by positivity
    have h1 : lo * (effectiveWeighting w s.name : ℚ) ≤
        (s.score : ℚ) * (effectiveWeighting w s.name : ℚ) :=
      mul_le_mul_of_nonneg_right (h s (List.mem_cons_self s rest)) hwpos
    have h2 := weighted_sum_lower w lo rest (fun x hx => h x (List.mem_cons_of_mem s hx))
    linarith

theorem weighted_sum_upper (w : List (String × Nat)) (hi : ℚ) :
    ∀ l : List ScoreV, (∀ s ∈ l, (s.score : ℚ) ≤ hi) →
      (l.map (fun s => (s.score : ℚ) * (effectiveWeighting w s.name : ℚ))).sum ≤
        hi * (l.map (fun s => (effectiveWeighting w s.name : ℚ))).sum
  | [], _ => by simp
  | s :: rest, h => by
    simp only [List.map_cons, List.sum_cons, mul_add]
    have hwpos : (0 : ℚ) ≤ (effectiveWeighting w s.name : ℚ) := by positivity
    have h1 : (s.score : ℚ) * (effectiveWeighting w s.name : ℚ) ≤
        hi * (effectiveWeighting w s.name : ℚ) :=
      mul_le_mul_of_nonneg_right (h s (List.mem_cons_self s rest)) hwpos
    have h2 := weighted_sum_upper w hi rest (fun x hx => h x (List.mem_cons_of_mem s hx))
    linarith

theorem weight_sum_pos (w : List (String × Nat)) (s0 : ScoreV) (rest : List ScoreV) :
    0 < ((s0 :: rest).map (fun s => (effectiveWeighting w s.name : ℚ))).sum := by
  simp only [List.map_cons, List.sum_cons]
  have h0 : (1 : ℚ) ≤ (effectiveWeighting w s0.name : ℚ) := by
    exact_mod_cast one_le_effectiveWeighting w s0.name
  have hrest : 0 ≤ (rest.map (fun s => (effectiveWeighting w s.name : ℚ))).sum := by
    refine List.sum_nonneg ?_
    intro x hx
    obtain ⟨s, _, hs⟩ := List.mem_map.mp hx
    rw [← hs]
    positivity
  linarith

theorem composite_eq_div (i : Interp) (w : List (String × Nat)) (s0 : ScoreV)
    (rest : List ScoreV) (hscores : i.scores = s0 :: rest) :
    weightedCompositeScore i w =
      some ((i.scores.map (fun s => (s.score : ℚ) * (effectiveWeighting w s.name : ℚ))).sum /
            (i.scores.map (fun s => (effectiveWeighting w s.name : ℚ))).sum) := by
  have hlen : ¬ i.scores.length = 0 := by
    rw [hscores]
    simp
  unfold weightedCompositeScore
  simp only [hlen, if_false]
  rw [foldl_score_pair (fun s => (s.score : ℚ) * (effectiveWeighting w s.name : ℚ))
    (fun s => (effectiveWeighting w s.name : ℚ)) i.scores 0 0]
  rw [zero_add, zero_add]

theorem foldl_min_le (rest : List ScoreV) :
    ∀ a : ℚ, rest.foldl (fun (m : ℚ) s => min m (s.score : ℚ)) a ≤ a ∧
      ∀ s ∈ rest, rest.foldl (fun (m : ℚ) s => min m (s.score : ℚ)) a ≤ (s.score : ℚ) := by
  induction rest with
  | nil =>
    intro a
    exact ⟨le_refl a, fun s hs => absurd hs (List.not_mem_nil s)⟩
  | cons x tail ih =>
    intro a
    obtain ⟨h1, h2⟩ := ih (min a (x.score : ℚ))
    simp only [List.foldl_cons]
    refine ⟨le_trans h1 (min_le_left _ _), ?_⟩
    intro s hs
    rcases List.mem_cons.mp hs with hs | hs
    · subst hs
      exact le_trans h1 (min_le_right _ _)
    · exact h2 s hs

theorem le_foldl_max (rest : List ScoreV) :
    ∀ a : ℚ, a ≤ rest.foldl (fun (m : ℚ) s => max m (s.score : ℚ)) a ∧
      ∀ s ∈ rest, (s.score : ℚ) ≤ rest.foldl (fun (m : ℚ) s => max m (s.score : ℚ)) a := by
  induction rest with
  | nil =>
    intro a
    exact ⟨le_refl a, fun s hs => absurd hs (List.not_mem_nil s)⟩
  | cons x tail ih =>
    intro a
    obtain ⟨h1, h2⟩ := ih (max a (x.score : ℚ))
    simp only [List.foldl_cons]
    refine ⟨le_trans (le_max_left _ _) h1, ?_⟩
    intro s hs
    rcases List.mem_cons.mp hs with hs | hs
    · subst hs
      exact le_trans (le_max_right _ _) h1
    · exact h2 s hs

theorem composite_between (i : Interp) (w : List (String × Nat)) (s0 : ScoreV)
    (rest : List ScoreV) (hscores : i.scores = s0 :: rest) (q : ℚ)
    (hq : weightedCompositeScore i w = some q) (lo hi : ℚ)
    (hbound : ∀ s ∈ i.scores, lo ≤ (s.score : ℚ) ∧ (s.score : ℚ) ≤ hi) :
    lo ≤ q ∧ q ≤ hi := by
  rw [composite_eq_div i w s0 rest hscores] at hq
  rw [Option.some.injEq] at hq
  subst hq
  rw [hscores]
  rw [hscores] at hbound
  have hW := weight_sum_pos w s0 rest
  constructor
  · rw [le_div_iff₀ hW]
    exact weighted_sum_lower w lo (s0 :: rest) (fun s hs => (hbound s hs).1)
  · rw [div_le_iff₀ hW]
    exact weighted_sum_upper w hi (s0 :: rest) (fun s hs => (hbound s hs).2)

/-- C10: for a non-empty score set and positive weights, the weighted
composite lies between the minimum and the maximum of the stored score
values; in particular, with every score in 0..5 the composite is in
0..5. -/
theorem c10_composite_bounds (i : Interp) (w : List (String × Nat))
    (_hw : ∀ kv ∈ w, 0 < kv.2) (s0 : ScoreV) (rest : List ScoreV)
    (hscores : i.scores = s0 :: rest) (q : ℚ)
    (hq : weightedCompositeScore i w = some q) :
    rest.foldl (fun (m : ℚ) s => min m (s.score : ℚ)) (s0.score : ℚ) ≤ q ∧
    q ≤ rest.foldl (fun (m : ℚ) s => max m (s.score : ℚ)) (s0.score : ℚ) ∧
    ((∀ s ∈ i.scores, s.score ≤ 5) → 0 ≤ q ∧ q ≤ 5) := by
  obtain ⟨hmin1, hmin2⟩ := foldl_min_le rest (s0.score : ℚ)
  obtain ⟨hmax1, hmax2⟩ := le_foldl_max rest (s0.score : ℚ)
  have hbound : ∀ s ∈ i.scores,
      rest.foldl (fun (m : ℚ) s => min m (s.score : ℚ)) (s0.score : ℚ) ≤ (s.score : ℚ) ∧
      (s.score : ℚ) ≤ rest.foldl (fun (m : ℚ) s => max m (s.score : ℚ)) (s0.score : ℚ) := by
    intro s hs
    rw [hscores] at hs
    rcases List.mem_cons.mp hs with hs | hs
    · subst hs
      exact ⟨hmin1, hmax1⟩
    · exact ⟨hmin2 s hs, hmax2 s hs⟩
  obtain ⟨hqlo, hqhi⟩ := composite_between i w s0 rest hscores q hq _ _ hbound
  refine ⟨hqlo, hqhi, ?_⟩
  intro h5
  refine composite_between i w s0 rest hscores q hq 0 5 ?_
  intro s hs
  refine ⟨by positivity, ?_⟩
  exact_mod_cast h5 s hs

/-- C10 witness: scores dog = 5 and cat = 3 with weighting dog ↦ 2 —
the composite 13/3 lies between 3 and 5, and within 0..5, via
`c10_composite_bounds`. -/
theorem c10_composite_bounds_witness :
    (min (5 : ℚ) 3 ≤ (2 * 5 + 3 : ℚ) / 3 ∧ (2 * 5 + 3 : ℚ) / 3 ≤ max (5 : ℚ) 3) ∧
    (0 ≤ (2 * 5 + 3 : ℚ) / 3 ∧ (2 * 5 + 3 : ℚ) / 3 ≤ 5) := by
  have hq : weightedCompositeScore
      ⟨none, none, none, none, none, none, none, none, 0, 0, none,
        [⟨"dog", 5⟩, ⟨"cat", 3⟩]⟩ [("dog", 2)] = some ((2 * 5 + 3 : ℚ) / 3) := by
    simp [weightedCompositeScore, effectiveWeighting, List.find?]
    norm_num
  have h := c10_composite_bounds
    ⟨none, none, none, none, none, none, none, none, 0, 0, none,
      [⟨"dog", 5⟩, ⟨"cat", 3⟩]⟩ [("dog", 2)] (by decide) ⟨"dog", 5⟩ [⟨"cat", 3⟩] rfl
    ((2 * 5 + 3 : ℚ) / 3) hq
  exact ⟨⟨h.1, h.2.1⟩, h.2.2 (by decide)⟩

end SdmPackAnalysis
